import Mathlib

/-!
Verification of the pak codec: encoding and decoding of Chromium ".pak"
resource archives, shallowly embedded from `pak.go`.

Byte streams are modelled as `List Nat` (each element a byte value).
The Go `io.Reader` is modelled as sequential consumption of the list;
a read of `n` bytes yields `min n remaining` bytes, as with a file-backed
reader. Machine integers (`uint8`/`uint16`/`uint32`) are modelled as `Nat`
with explicit reduction modulo `2^8` / `2^16` / `2^32` where Go's
fixed-width arithmetic matters (field extraction and wrapping subtraction).
-/

namespace Pak

/-- Little-endian serialization of a `uint16` value (2 bytes),
as produced by Go's `binary.Write` with `binary.LittleEndian`. -/
def u16le (v : Nat) : List Nat :=
  [v % 256, v / 256 % 256]

/-- Little-endian serialization of a `uint32` value (4 bytes). -/
def u32le (v : Nat) : List Nat :=
  [v % 256, v / 256 % 256, v / 65536 % 256, v / 16777216 % 256]

/-- Little-endian value of a byte list, as read by Go's `binary.Read`
with `binary.LittleEndian`. Each element is reduced mod 256: stream
elements represent bytes. -/
def leNum : List Nat → Nat
  | [] => 0
  | b :: rest => b % 256 + 256 * leNum rest

/-- Go `uint32` subtraction `a - b`: wraps modulo `2^32`. -/
def u32sub (a b : Nat) : Nat :=
  (a + (4294967296 - b % 4294967296)) % 4294967296

/-- Decode errors surfaced by `Read` (`pak.go`): `eof` models an underlying
reader error returned unchanged — a failed `binary.Read` on a short header
or index, and the `io.EOF` that `r.Read` yields in the resource loop when a
positive length is requested of an exhausted stream; `sentinel` models
`error reading resources: last id != 0`; `truncated id` models
`error reading resource id=%d`. -/
inductive DecodeError where
  | eof : DecodeError
  | sentinel : DecodeError
  | truncated : Nat → DecodeError
deriving DecidableEq, Repr

/-- The `PakFile` struct of `pak.go`. The Go map `Resourses` (sic) from
`uint16` to `[]byte` is modelled as an association list with key-equality
lookup; the Go map invariant (no duplicate keys) is carried as a
hypothesis where behavior depends on it. -/
structure PakFile where
  Version : Nat
  Encoding : Nat
  Resourses : List (Nat × List Nat)
deriving DecidableEq, Repr

/-- The observable outcome of running `Read`: a returned table, a returned
error, or a runtime panic (`crash`). The only panic in `Read` is the
index-out-of-range at `resInfos[numberOfResources]` when the `uint32`
computation `numberOfResources+1` wraps to 0. -/
inductive ReadResult where
  | ok : PakFile → ReadResult
  | error : DecodeError → ReadResult
  | crash : ReadResult
deriving DecidableEq, Repr

/-- Go map read `m[k]`: value of the binding of `k`, if any. -/
def mapLookup (k : Nat) : List (Nat × List Nat) → Option (List Nat)
  | [] => none
  | q :: l => if q.1 = k then some q.2 else mapLookup k l

/-- Go map read defaulting to the zero value `[]byte(nil)` for an
absent key (the keys queried by `pak.go` are always present). -/
def lookupD (m : List (Nat × List Nat)) (k : Nat) : List Nat :=
  (mapLookup k m).getD []

/-- Go map write `m[k] = v`: overwrites the existing binding of `k`
if present, otherwise adds a binding. -/
def mapInsert (m : List (Nat × List Nat)) (k : Nat) (v : List Nat) : List (Nat × List Nat) :=
  if k ∈ m.map Prod.fst then m.map (fun q => if q.1 = k then (k, v) else q)
  else m ++ [(k, v)]

/-- `append`-based concatenation of the images of a list. -/
def catMap (f : α → List β) : List α → List β
  | [] => []
  | a :: l => f a ++ catMap f l

/-- The resource ids of a table, in ascending numeric order
(`sort.Ints(ids)` in `Write`). -/
def sortedIds (p : PakFile) : List Nat :=
  List.insertionSort (· ≤ ·) (p.Resourses.map Prod.fst)

/-- The index-writing loop of `Write`: for each id (in the given order)
emit `(uint16(id), uint32(curOffset))` and advance `curOffset` by the
length of that id's data; finally emit the terminal entry
`(0, curOffset)`. Offsets accumulate in `Nat`; `u16le`/`u32le` perform
the fixed-width truncation of the Go casts. -/
def writeIndexEntries (p : PakFile) : List Nat → Nat → List Nat
  | [], cur => u16le 0 ++ u32le cur
  | id :: rest, cur =>
      u16le id ++ u32le cur ++
        writeIndexEntries p rest (cur + (lookupD p.Resourses id).length)

/-- The `Write` function of `pak.go`, as the byte stream it emits:
9-byte header (`u32` version, `u32` resource count, `u8` encoding),
index entries in ascending id order with accumulated offsets starting at
`headerLength + 6*(count+1)`, the terminal `(0, finalOffset)` entry, and
the payloads concatenated in the same ascending id order. -/
def Write (p : PakFile) : List Nat :=
  u32le p.Version ++ u32le p.Resourses.length ++ [p.Encoding % 256] ++
  writeIndexEntries p (sortedIds p) (9 + 6 * (p.Resourses.length + 1)) ++
  catMap (fun id => lookupD p.Resourses id) (sortedIds p)

/-- One index entry parsed from the head of a stream:
`(uint16 id, uint32 offset)`, both little-endian. -/
def readEntry (s : List Nat) : Nat × Nat :=
  (leNum (s.take 2), leNum ((s.drop 2).take 4))

/-- The index-reading loop of `Read`: `n` consecutive 6-byte entries. -/
def readEntries : Nat → List Nat → List (Nat × Nat)
  | 0, _ => []
  | n + 1, s => readEntry s :: readEntries n (s.drop 6)

/-- The resource-reading loop of `Read`: for each consecutive pair of
index entries, the resource's length is the `uint32` difference of the
offsets. The stream is a file-backed reader: `r.Read(resData)` returns
all remaining bytes up to the requested length with a nil error, except
that requesting a positive length of an exhausted stream yields
`(0, io.EOF)`, which the code returns unchanged before its `n != resLength`
check (a zero-length request returns `(0, nil)` even at EOF). A short but
non-empty read fails with the truncation error naming the entry's id;
otherwise the id is bound to the bytes read (Go map insert: a later
duplicate id overwrites an earlier one). The final entry (the terminal
sentinel) is not a resource. -/
def readResources : PakFile → List (Nat × Nat) → List Nat → ReadResult
  | p, e1 :: e2 :: rest, s =>
      let len := u32sub e2.2 e1.2
      if 0 < len ∧ s.length = 0 then .error .eof
      else if s.length < len then .error (.truncated e1.1)
      else
        readResources
          { p with Resourses := mapInsert p.Resourses e1.1 (s.take len) }
          (e2 :: rest) (s.drop len)
  | p, _, _ => .ok p

/-- The `Read` function of `pak.go`: parse the 9-byte header, read the
index, check that the last entry's id is `0`
(`resInfos[numberOfResources].id != 0` fails), then read the resources.
The index length `numberOfResources+1` is computed in `uint32`: when the
declared count is `2^32 - 1` it wraps to 0, the index loop reads nothing,
and `resInfos[numberOfResources]` panics with index-out-of-range
(`crash`). A short read while parsing the header or the index is the
error return of `binary.Read`, collapsed here to a single length test
per phase. -/
def Read (s : List Nat) : ReadResult :=
  if s.length < 9 then .error .eof
  else
    let version := leNum (s.take 4)
    let count := leNum ((s.drop 4).take 4)
    let encoding := leNum ((s.drop 8).take 1)
    let rest := s.drop 9
    let numEntries := (count + 1) % 4294967296
    if numEntries = 0 then .crash
    else if rest.length < 6 * numEntries then .error .eof
    else
      let entries := readEntries numEntries rest
      if (entries.getD count (0, 0)).1 ≠ 0 then .error .sentinel
      else readResources ⟨version, encoding, []⟩ entries (rest.drop (6 * numEntries))

/-- The 6 bytes of one index entry. -/
def entryBytes (q : Nat × Nat) : List Nat :=
  u16le q.1 ++ u32le q.2

/-- The bytes of a whole index. -/
def indexBytes (es : List (Nat × Nat)) : List Nat :=
  catMap entryBytes es

/-- The index-entry list determined by a resource sequence and a start
offset: each resource contributes `(id mod 2^16, offset mod 2^32)` with
offsets accumulating by payload length, followed by the terminal
`(0, finalOffset mod 2^32)` entry. -/
def entriesFor : Nat → List (Nat × List Nat) → List (Nat × Nat)
  | cur, [] => [(0, cur % 4294967296)]
  | cur, (k, d) :: rest => (k % 65536, cur % 4294967296) :: entriesFor (cur + d.length) rest

/-- Sequential Go-map insertion of a resource sequence (later duplicate
ids overwrite earlier ones); ids are reduced to `uint16` as `Read`
parses them. -/
def insertAll (m : List (Nat × List Nat)) : List (Nat × List Nat) → List (Nat × List Nat)
  | [] => m
  | (k, d) :: rest => insertAll (mapInsert m (k % 65536) d) rest

/-- The resource sequence of a table in ascending id order, as `Write`
serializes it. -/
def sortedRs (p : PakFile) : List (Nat × List Nat) :=
  (sortedIds p).map (fun id => (id, lookupD p.Resourses id))

/-- The index-entry list `Write` emits for a table. -/
def pakEntries (p : PakFile) : List (Nat × Nat) :=
  entriesFor (9 + 6 * (p.Resourses.length + 1)) (sortedRs p)

/-- Declared length of the `i`-th resource of an index: the `uint32`
difference of consecutive offsets. -/
def lenAt (es : List (Nat × Nat)) (i : Nat) : Nat :=
  u32sub (es.getD (i + 1) (0, 0)).2 (es.getD i (0, 0)).2

/-- Total declared length of the first `i` resources of an index. -/
def sumLens (es : List (Nat × Nat)) : Nat → Nat
  | 0 => 0
  | i + 1 => sumLens es i + lenAt es i

/-- Total payload length of a resource sequence. -/
def totalLen (rs : List (Nat × List Nat)) : Nat :=
  (rs.map (fun q => q.2.length)).sum

/-- A table with a single resource of 2^32 bytes: its terminal offset wraps
around 32 bits, so the encoded index is wrong and the decoder recovers a
resource length of 0. Used to refute the unbounded round-trip claim. -/
def Tbig : PakFile := ⟨0, 0, [(1, List.replicate 4294967296 0)]⟩

/-- A table with a single resource of 2^32 bytes under identifier 2, used to
refute the unbounded offset-arithmetic claim for the encoder's index. -/
def T8big : PakFile := ⟨0, 0, [(2, List.replicate 4294967296 0)]⟩

@[simp] theorem u16le_length (v : Nat) : (u16le v).length = 2 := rfl

@[simp] theorem u32le_length (v : Nat) : (u32le v).length = 4 := rfl

theorem leNum_u16le (v : Nat) : leNum (u16le v) = v % 65536 := by
  simp only [u16le, leNum]
  omega

theorem leNum_u32le (v : Nat) : leNum (u32le v) = v % 4294967296 := by
  simp only [u32le, leNum]
  omega

theorem u16le_mod (v : Nat) : u16le (v % 65536) = u16le v := by
  simp only [u16le, List.cons.injEq, and_true]
  constructor
  · omega
  · omega

theorem u32le_mod (v : Nat) : u32le (v % 4294967296) = u32le v := by
  simp only [u32le, List.cons.injEq, and_true]
  refine ⟨by omega, by omega, by omega, by omega⟩

theorem u32sub_add (c L : Nat) :
    u32sub ((c + L) % 4294967296) (c % 4294967296) = L % 4294967296 := by
  simp only [u32sub]
  omega

@[simp] theorem catMap_nil (f : α → List β) : catMap f [] = [] := rfl

@[simp] theorem catMap_cons (f : α → List β) (a : α) (l : List α) :
    catMap f (a :: l) = f a ++ catMap f l := rfl

theorem catMap_append (f : α → List β) (l₁ l₂ : List α) :
    catMap f (l₁ ++ l₂) = catMap f l₁ ++ catMap f l₂ := by
  induction l₁ with
  | nil => rfl
  | cons a l ih => simp [ih]

@[simp] theorem indexBytes_nil : indexBytes [] = [] := rfl

@[simp] theorem indexBytes_cons (q : Nat × Nat) (es : List (Nat × Nat)) :
    indexBytes (q :: es) = entryBytes q ++ indexBytes es := rfl

theorem entryBytes_length (q : Nat × Nat) : (entryBytes q).length = 6 := by
  simp [entryBytes]

theorem indexBytes_length (es : List (Nat × Nat)) :
    (indexBytes es).length = 6 * es.length := by
  induction es with
  | nil => rfl
  | cons q es ih => simp [entryBytes, ih]; omega

theorem readEntry_entryBytes (q : Nat × Nat) (t : List Nat)
    (h1 : q.1 < 65536) (h2 : q.2 < 4294967296) :
    readEntry (entryBytes q ++ t) = q := by
  have ht : entryBytes q ++ t = u16le q.1 ++ (u32le q.2 ++ t) := by
    simp [entryBytes]
  rw [readEntry, ht, List.take_left' (by simp), List.drop_left' (by simp),
    List.take_left' (by simp), leNum_u16le, leNum_u32le,
    Nat.mod_eq_of_lt h1, Nat.mod_eq_of_lt h2]

theorem readEntries_indexBytes (es : List (Nat × Nat)) (t : List Nat)
    (hnorm : ∀ q ∈ es, q.1 < 65536 ∧ q.2 < 4294967296) :
    readEntries es.length (indexBytes es ++ t) = es := by
  induction es with
  | nil => rfl
  | cons q es ih =>
    have hq := hnorm q (by simp)
    simp only [List.length_cons, indexBytes_cons, readEntries, List.append_assoc]
    rw [readEntry_entryBytes q _ hq.1 hq.2,
      List.drop_left' (entryBytes_length q),
      ih (fun q hq => hnorm q (by simp [hq]))]

theorem drop_indexBytes (es : List (Nat × Nat)) (t : List Nat) :
    (indexBytes es ++ t).drop (6 * es.length) = t :=
  List.drop_left' (indexBytes_length es)

theorem entriesFor_length (cur : Nat) (rs : List (Nat × List Nat)) :
    (entriesFor cur rs).length = rs.length + 1 := by
  induction rs generalizing cur with
  | nil => rfl
  | cons q rs ih => simp [entriesFor, ih]

theorem entriesFor_norm (cur : Nat) (rs : List (Nat × List Nat)) :
    ∀ q ∈ entriesFor cur rs, q.1 < 65536 ∧ q.2 < 4294967296 := by
  induction rs generalizing cur with
  | nil =>
    intro q hq
    simp only [entriesFor, List.mem_singleton] at hq
    subst hq
    exact ⟨by omega, by omega⟩
  | cons r rs ih =>
    intro q hq
    simp only [entriesFor, List.mem_cons] at hq
    rcases hq with hq | hq
    · subst hq
      exact ⟨by omega, by omega⟩
    · exact ih _ q hq

theorem entriesFor_last (cur : Nat) (rs : List (Nat × List Nat)) :
    (entriesFor cur rs).getD rs.length (0, 0) = (0, (cur + totalLen rs) % 4294967296) := by
  induction rs generalizing cur with
  | nil => simp [entriesFor, totalLen]
  | cons r rs ih =>
    simp only [entriesFor, List.length_cons, List.getD_cons_succ, ih, totalLen,
      List.map_cons, List.sum_cons]
    congr 2
    omega

theorem mapInsert_not_mem {m : List (Nat × List Nat)} {k : Nat} (v : List Nat)
    (h : k ∉ m.map Prod.fst) : mapInsert m k v = m ++ [(k, v)] := by
  simp [mapInsert, h]

theorem mapLookup_isSome_iff (k : Nat) (m : List (Nat × List Nat)) :
    (mapLookup k m).isSome = true ↔ k ∈ m.map Prod.fst := by
  induction m with
  | nil => simp [mapLookup]
  | cons q m ih =>
    by_cases h : q.1 = k
    · simp [mapLookup, h]
    · simp only [mapLookup, if_neg h, List.map_cons, List.mem_cons, ih]
      constructor
      · exact fun hh => Or.inr hh
      · rintro (hh | hh)
        · exact absurd hh.symm h
        · exact hh

theorem mapLookup_eq_some_of_nodup {m : List (Nat × List Nat)} {k : Nat} {v : List Nat}
    (hnd : (m.map Prod.fst).Nodup) (hmem : (k, v) ∈ m) : mapLookup k m = some v := by
  induction m with
  | nil => simp at hmem
  | cons q m ih =>
    simp only [List.map_cons, List.nodup_cons] at hnd
    rcases List.mem_cons.mp hmem with hq | hq
    · subst hq
      simp [mapLookup]
    · have hne : q.1 ≠ k := by
        intro he
        exact hnd.1 (he ▸ (List.mem_map.mpr ⟨(k, v), hq, rfl⟩))
      simp only [mapLookup, if_neg hne]
      exact ih hnd.2 hq

theorem mapLookup_mem {m : List (Nat × List Nat)} {k : Nat} {v : List Nat}
    (h : mapLookup k m = some v) : (k, v) ∈ m := by
  induction m with
  | nil => simp [mapLookup] at h
  | cons q m ih =>
    by_cases hq : q.1 = k
    · simp only [mapLookup, if_pos hq] at h
      have hq2 : q = (k, v) := by
        obtain ⟨q1, q2⟩ := q
        simp only [Option.some.injEq] at h
        simp only at hq
        rw [hq, h]
      rw [hq2]
      exact List.mem_cons_self _ _
    · simp only [mapLookup, if_neg hq] at h
      exact List.mem_cons_of_mem _ (ih h)

theorem mapLookup_eq_none_of_not_mem {m : List (Nat × List Nat)} {k : Nat}
    (h : k ∉ m.map Prod.fst) : mapLookup k m = none := by
  cases hl : mapLookup k m with
  | none => rfl
  | some v =>
    exact absurd ((mapLookup_isSome_iff k m).mp (by simp [hl])) h

theorem mapLookup_perm {m₁ m₂ : List (Nat × List Nat)} (k : Nat)
    (hnd : (m₁.map Prod.fst).Nodup) (hp : m₁.Perm m₂) :
    mapLookup k m₁ = mapLookup k m₂ := by
  have hnd₂ : (m₂.map Prod.fst).Nodup := ((hp.map Prod.fst).nodup_iff).mp hnd
  cases hl : mapLookup k m₁ with
  | some v =>
    exact (mapLookup_eq_some_of_nodup hnd₂ (hp.mem_iff.mp (mapLookup_mem hl))).symm
  | none =>
    have hk : k ∉ m₁.map Prod.fst := by
      intro hmem
      have := (mapLookup_isSome_iff k m₁).mpr hmem
      simp [hl] at this
    have hk₂ : k ∉ m₂.map Prod.fst := fun hmem =>
      hk (((hp.map Prod.fst).mem_iff).mpr hmem)
    exact (mapLookup_eq_none_of_not_mem hk₂).symm

theorem mapLookup_map_replace_self (m : List (Nat × List Nat)) (k : Nat) (v : List Nat)
    (h : k ∈ m.map Prod.fst) :
    mapLookup k (m.map (fun q => if q.1 = k then (k, v) else q)) = some v := by
  induction m with
  | nil => simp at h
  | cons q m ih =>
    by_cases hq : q.1 = k
    · simp [mapLookup, hq]
    · have hm : k ∈ m.map Prod.fst := by
        simp only [List.map_cons, List.mem_cons] at h
        rcases h with h | h
        · exact absurd h.symm hq
        · exact h
      rw [List.map_cons, if_neg hq]
      simp only [mapLookup, if_neg hq]
      exact ih hm

theorem mapLookup_append_self (m : List (Nat × List Nat)) (k : Nat) (v : List Nat)
    (h : k ∉ m.map Prod.fst) : mapLookup k (m ++ [(k, v)]) = some v := by
  induction m with
  | nil => simp [mapLookup]
  | cons q m ih =>
    have hq : q.1 ≠ k := fun he => h (by simp [he])
    simp only [List.cons_append, mapLookup, if_neg hq]
    exact ih (fun hm => h (by simp [hm]))

theorem mapLookup_mapInsert_self (m : List (Nat × List Nat)) (k : Nat) (v : List Nat) :
    mapLookup k (mapInsert m k v) = some v := by
  by_cases h : k ∈ m.map Prod.fst
  · rw [mapInsert, if_pos h]
    exact mapLookup_map_replace_self m k v h
  · rw [mapInsert, if_neg h]
    exact mapLookup_append_self m k v h

theorem mapLookup_map_replace (m : List (Nat × List Nat)) {k k' : Nat} (v : List Nat)
    (h : k' ≠ k) :
    mapLookup k' (m.map (fun q => if q.1 = k then (k, v) else q)) = mapLookup k' m := by
  induction m with
  | nil => rfl
  | cons q m ih =>
    by_cases hq : q.1 = k
    · simp only [List.map_cons, if_pos hq, mapLookup]
      rw [if_neg (fun he : k = k' => h he.symm),
        if_neg (by rw [hq]; exact fun he => h he.symm), ih]
    · simp only [List.map_cons, if_neg hq, mapLookup]
      by_cases hq' : q.1 = k'
      · simp [hq']
      · rw [if_neg hq', if_neg hq', ih]

theorem mapLookup_append_single_ne (m : List (Nat × List Nat)) {k k' : Nat} (v : List Nat)
    (h : k' ≠ k) : mapLookup k' (m ++ [(k, v)]) = mapLookup k' m := by
  induction m with
  | nil => simp [mapLookup, if_neg (fun he : k = k' => h he.symm)]
  | cons q m ih =>
    by_cases hq : q.1 = k'
    · simp [mapLookup, hq]
    · simp only [List.cons_append, mapLookup, if_neg hq]
      exact ih

theorem mapLookup_mapInsert_ne (m : List (Nat × List Nat)) {k k' : Nat} (v : List Nat)
    (h : k' ≠ k) : mapLookup k' (mapInsert m k v) = mapLookup k' m := by
  by_cases hm : k ∈ m.map Prod.fst
  · rw [mapInsert, if_pos hm, mapLookup_map_replace m v h]
  · rw [mapInsert, if_neg hm, mapLookup_append_single_ne m v h]

theorem insertAll_append (m : List (Nat × List Nat)) (rs₁ rs₂ : List (Nat × List Nat)) :
    insertAll m (rs₁ ++ rs₂) = insertAll (insertAll m rs₁) rs₂ := by
  induction rs₁ generalizing m with
  | nil => rfl
  | cons q rs₁ ih =>
    obtain ⟨k, d⟩ := q
    simp only [List.cons_append, insertAll]
    exact ih _

theorem insertAll_fresh (m : List (Nat × List Nat)) (rs : List (Nat × List Nat))
    (h16 : ∀ q ∈ rs, q.1 < 65536) (hnd : (rs.map Prod.fst).Nodup)
    (hdisj : ∀ q ∈ rs, q.1 ∉ m.map Prod.fst) :
    insertAll m rs = m ++ rs := by
  induction rs generalizing m with
  | nil => simp [insertAll]
  | cons q rs ih =>
    obtain ⟨k, d⟩ := q
    have hk : k % 65536 = k := Nat.mod_eq_of_lt (h16 (k, d) (by simp))
    have hnd' : (rs.map Prod.fst).Nodup := by
      simp only [List.map_cons, List.nodup_cons] at hnd
      exact hnd.2
    have hknotin : k ∉ rs.map Prod.fst := by
      simp only [List.map_cons, List.nodup_cons] at hnd
      exact hnd.1
    have hdisj' : ∀ q ∈ rs, q.1 ∉ (m ++ [(k, d)]).map Prod.fst := by
      intro q hq
      simp only [List.map_append, List.mem_append, List.map_cons, List.map_nil,
        List.mem_singleton, not_or]
      exact ⟨hdisj q (by simp [hq]), fun he => hknotin (he ▸ List.mem_map.mpr ⟨q, hq, rfl⟩)⟩
    simp only [insertAll, hk]
    rw [mapInsert_not_mem d (hdisj (k, d) (by simp))]
    rw [ih (m ++ [(k, d)]) (fun q hq => h16 q (by simp [hq])) hnd' hdisj']
    simp

theorem mapLookup_insertAll_not_mem (m : List (Nat × List Nat)) (rs : List (Nat × List Nat))
    (k : Nat) (h : ∀ q ∈ rs, q.1 % 65536 ≠ k) :
    mapLookup k (insertAll m rs) = mapLookup k m := by
  induction rs generalizing m with
  | nil => rfl
  | cons q rs ih =>
    obtain ⟨k', d⟩ := q
    simp only [insertAll]
    rw [ih _ (fun q hq => h q (by simp [hq]))]
    exact mapLookup_mapInsert_ne m d (fun he => h (k', d) (by simp) he.symm)

theorem mem_keys_mapInsert_self (m : List (Nat × List Nat)) (k : Nat) (v : List Nat) :
    k ∈ (mapInsert m k v).map Prod.fst := by
  have := mapLookup_mapInsert_self m k v
  exact (mapLookup_isSome_iff k _).mp (by simp [this])

theorem mem_keys_mapInsert_of (m : List (Nat × List Nat)) {k' : Nat} (k : Nat) (v : List Nat)
    (h : k' ∈ m.map Prod.fst) : k' ∈ (mapInsert m k v).map Prod.fst := by
  by_cases he : k' = k
  · exact he ▸ mem_keys_mapInsert_self m k v
  · have : mapLookup k' (mapInsert m k v) = mapLookup k' m := mapLookup_mapInsert_ne m v he
    exact (mapLookup_isSome_iff k' _).mp (by rw [this]; exact (mapLookup_isSome_iff k' m).mpr h)

theorem entriesFor_nil (cur : Nat) : entriesFor cur [] = [(0, cur % 4294967296)] := rfl

theorem entriesFor_cons (cur k : Nat) (d : List Nat) (rs : List (Nat × List Nat)) :
    entriesFor cur ((k, d) :: rs) =
      (k % 65536, cur % 4294967296) :: entriesFor (cur + d.length) rs := rfl

theorem readResources_cons (p : PakFile) (i1 o1 i2 o2 : Nat) (rest : List (Nat × Nat))
    (s : List Nat) :
    readResources p ((i1, o1) :: (i2, o2) :: rest) s =
      if 0 < u32sub o2 o1 ∧ s.length = 0 then .error .eof
      else if s.length < u32sub o2 o1 then .error (.truncated i1)
      else readResources
        { p with Resourses := mapInsert p.Resourses i1 (s.take (u32sub o2 o1)) }
        ((i2, o2) :: rest) (s.drop (u32sub o2 o1)) := rfl

theorem readResources_single (p : PakFile) (e : Nat × Nat) (s : List Nat) :
    readResources p [e] s = .ok p := rfl

theorem readResources_nil (p : PakFile) (s : List Nat) :
    readResources p [] s = .ok p := rfl

theorem entriesFor_shape (cur : Nat) (rs : List (Nat × List Nat)) :
    ∃ i2 es', entriesFor cur rs = (i2, cur % 4294967296) :: es' := by
  cases rs with
  | nil => exact ⟨0, [], rfl⟩
  | cons q rs =>
    obtain ⟨k, d⟩ := q
    exact ⟨k % 65536, entriesFor (cur + d.length) rs, rfl⟩

theorem readResources_entriesFor (rs : List (Nat × List Nat)) :
    ∀ (p : PakFile) (cur : Nat) (t : List Nat),
    (∀ q ∈ rs, q.2.length < 4294967296) →
    readResources p (entriesFor cur rs) (catMap Prod.snd rs ++ t) =
      .ok ⟨p.Version, p.Encoding, insertAll p.Resourses rs⟩ := by
  induction rs with
  | nil =>
    intro p cur t _
    rw [entriesFor_nil, readResources_single]
    rfl
  | cons q rs ih =>
    intro p cur t hlen
    obtain ⟨k, d⟩ := q
    have hd : d.length < 4294967296 := hlen (k, d) (by simp)
    obtain ⟨i2, es', hE⟩ := entriesFor_shape (cur + d.length) rs
    have hsub : u32sub ((cur + d.length) % 4294967296) (cur % 4294967296) = d.length := by
      rw [u32sub_add, Nat.mod_eq_of_lt hd]
    rw [entriesFor_cons, hE, readResources_cons]
    simp only [hsub]
    simp only [catMap_cons, List.append_assoc]
    rw [if_neg (by rw [List.length_append]; omega)]
    rw [if_neg (by rw [List.length_append]; omega)]
    rw [List.take_left' rfl, List.drop_left' rfl, ← hE]
    rw [ih _ (cur + d.length) t (fun q hq => hlen q (by simp [hq]))]
    rfl

theorem take4_u32 (x : Nat) (r : List Nat) : (u32le x ++ r).take 4 = u32le x :=
  List.take_left' (by simp)

theorem drop4_u32 (x : Nat) (r : List Nat) : (u32le x ++ r).drop 4 = r :=
  List.drop_left' (by simp)

theorem drop8_header (x y : Nat) (r : List Nat) :
    (u32le x ++ (u32le y ++ r)).drop 8 = r := by
  rw [show (8 : Nat) = 4 + 4 from rfl, ← List.drop_drop, drop4_u32, drop4_u32]

theorem drop9_header (x y z : Nat) (r : List Nat) :
    (u32le x ++ (u32le y ++ ([z] ++ r))).drop 9 = r := by
  rw [show (9 : Nat) = 8 + 1 from rfl, ← List.drop_drop, drop8_header,
    List.singleton_append, List.drop_one, List.tail_cons]

theorem take1_cons (a : Nat) (r : List Nat) : (a :: r).take 1 = [a] := rfl

theorem leNum_single (b : Nat) : leNum [b] = b % 256 := by
  simp only [leNum]
  omega

theorem header_length (x y z : Nat) (r : List Nat) :
    (u32le x ++ (u32le y ++ ([z] ++ r))).length = 9 + r.length := by
  simp [List.length_append]
  omega

theorem read_stream (v c e : Nat) (es : List (Nat × Nat)) (t : List Nat)
    (hc : c + 1 < 4294967296) (hlen : es.length = c + 1)
    (hnorm : ∀ q ∈ es, q.1 < 65536 ∧ q.2 < 4294967296) :
    Read (u32le v ++ (u32le c ++ ([e % 256] ++ (indexBytes es ++ t)))) =
      if (es.getD c (0, 0)).1 ≠ 0 then .error .sentinel
      else readResources ⟨v % 4294967296, e % 256, []⟩ es t := by
  have hc' : c < 4294967296 := by omega
  have hidx : (indexBytes es ++ t).length = 6 * (c + 1) + t.length := by
    rw [List.length_append, indexBytes_length, hlen]
  have henc : leNum (([e % 256] ++ (indexBytes es ++ t)).take 1) = e % 256 := by
    rw [List.singleton_append, take1_cons, leNum_single]
    omega
  simp only [Read, take4_u32, drop4_u32, drop8_header, drop9_header, leNum_u32le,
    Nat.mod_eq_of_lt hc', Nat.mod_eq_of_lt hc, header_length, henc]
  rw [if_neg (by omega)]
  rw [if_neg (by omega)]
  rw [if_neg (by rw [hidx]; omega)]
  rw [← hlen, readEntries_indexBytes es t hnorm, drop_indexBytes]

theorem writeIndexEntries_eq (p : PakFile) (ids : List Nat) :
    ∀ cur : Nat,
    writeIndexEntries p ids cur =
      indexBytes (entriesFor cur (ids.map fun id => (id, lookupD p.Resourses id))) := by
  induction ids with
  | nil =>
    intro cur
    simp only [writeIndexEntries, List.map_nil, entriesFor_nil, indexBytes_cons,
      indexBytes_nil, entryBytes, u32le_mod, List.append_nil]
  | cons id ids ih =>
    intro cur
    simp only [writeIndexEntries, List.map_cons, entriesFor_cons, indexBytes_cons,
      entryBytes, u16le_mod, u32le_mod, ih, List.append_assoc]

theorem catMap_snd_map (p : PakFile) (ids : List Nat) :
    catMap Prod.snd (ids.map fun id => (id, lookupD p.Resourses id)) =
      catMap (fun id => lookupD p.Resourses id) ids := by
  induction ids with
  | nil => rfl
  | cons id ids ih => simp [ih]

theorem sortedIds_perm (p : PakFile) : (sortedIds p).Perm (p.Resourses.map Prod.fst) :=
  List.perm_insertionSort _ _

theorem sortedIds_length (p : PakFile) : (sortedIds p).length = p.Resourses.length := by
  rw [(sortedIds_perm p).length_eq, List.length_map]

theorem sortedRs_length (p : PakFile) : (sortedRs p).length = p.Resourses.length := by
  rw [sortedRs, List.length_map, sortedIds_length]

theorem sortedRs_keys (p : PakFile) : (sortedRs p).map Prod.fst = sortedIds p := by
  rw [sortedRs, List.map_map]
  exact List.map_id _

theorem write_decomp (p : PakFile) :
    Write p = u32le p.Version ++ (u32le p.Resourses.length ++ ([p.Encoding % 256] ++
      (indexBytes (pakEntries p) ++ catMap Prod.snd (sortedRs p)))) := by
  rw [Write, writeIndexEntries_eq, pakEntries, ← catMap_snd_map]
  simp [List.append_assoc, sortedRs]

theorem map_keys_self (m : List (Nat × List Nat)) (hnd : (m.map Prod.fst).Nodup) :
    (m.map Prod.fst).map (fun k => (k, lookupD m k)) = m := by
  induction m with
  | nil => rfl
  | cons q m ih =>
    simp only [List.map_cons, List.nodup_cons] at hnd
    have h1 : lookupD (q :: m) q.1 = q.2 := by simp [lookupD, mapLookup]
    have h2 : (m.map Prod.fst).map (fun k => (k, lookupD (q :: m) k)) =
        (m.map Prod.fst).map (fun k => (k, lookupD m k)) := by
      apply List.map_congr_left
      intro k hk
      have hne : q.1 ≠ k := fun he => hnd.1 (he ▸ hk)
      simp [lookupD, mapLookup, if_neg hne]
    show (q.1, lookupD (q :: m) q.1) :: (m.map Prod.fst).map (fun k => (k, lookupD (q :: m) k)) =
      q :: m
    rw [h1, h2, ih hnd.2, Prod.mk.eta]

theorem sortedRs_perm (p : PakFile) (hnd : (p.Resourses.map Prod.fst).Nodup) :
    (sortedRs p).Perm p.Resourses := by
  have h := (sortedIds_perm p).map (fun k => (k, lookupD p.Resourses k))
  rw [map_keys_self p.Resourses hnd] at h
  exact h

theorem length_le_of_nodup_lt {l : List Nat} {n : Nat} (hnd : l.Nodup)
    (hlt : ∀ x ∈ l, x < n) : l.length ≤ n := by
  have hsub : l.toFinset ⊆ Finset.range n := fun x hx =>
    Finset.mem_range.mpr (hlt x (List.mem_toFinset.mp hx))
  have hcard := Finset.card_le_card hsub
  rwa [List.toFinset_card_of_nodup hnd, Finset.card_range] at hcard

theorem read_write (p : PakFile)
    (hv : p.Version < 4294967296) (he : p.Encoding < 256)
    (hnd : (p.Resourses.map Prod.fst).Nodup)
    (h16 : ∀ q ∈ p.Resourses, q.1 < 65536)
    (hdl : ∀ q ∈ p.Resourses, q.2.length < 4294967296) :
    Read (Write p) = .ok ⟨p.Version, p.Encoding, sortedRs p⟩ := by
  have hc : p.Resourses.length + 1 < 4294967296 := by
    have hle : (p.Resourses.map Prod.fst).length ≤ 65536 :=
      length_le_of_nodup_lt hnd (by
        intro x hx
        obtain ⟨q, hq, rfl⟩ := List.mem_map.mp hx
        exact h16 q hq)
    rw [List.length_map] at hle
    omega
  have hperm := sortedRs_perm p hnd
  have h16s : ∀ q ∈ sortedRs p, q.1 < 65536 := fun q hq => h16 q (hperm.mem_iff.mp hq)
  have hdls : ∀ q ∈ sortedRs p, q.2.length < 4294967296 := fun q hq =>
    hdl q (hperm.mem_iff.mp hq)
  have hnds : ((sortedRs p).map Prod.fst).Nodup := by
    rw [sortedRs_keys]
    exact ((sortedIds_perm p).nodup_iff).mpr hnd
  have hlen' : (pakEntries p).length = p.Resourses.length + 1 := by
    rw [pakEntries, entriesFor_length, sortedRs_length]
  have hlast : ((pakEntries p).getD p.Resourses.length (0, 0)).1 = 0 := by
    rw [pakEntries, ← sortedRs_length p, entriesFor_last]
  rw [write_decomp]
  rw [read_stream p.Version p.Resourses.length p.Encoding (pakEntries p) _ hc hlen'
    (entriesFor_norm _ _)]
  rw [if_neg (fun h => h hlast)]
  rw [← List.append_nil (catMap Prod.snd (sortedRs p)), pakEntries,
    readResources_entriesFor (sortedRs p) _ _ [] hdls]
  rw [insertAll_fresh [] (sortedRs p) h16s hnds (by simp)]
  rw [Nat.mod_eq_of_lt hv, Nat.mod_eq_of_lt he]
  rw [List.nil_append]

theorem lenAt_cons (e : Nat × Nat) (es : List (Nat × Nat)) (i : Nat) :
    lenAt (e :: es) (i + 1) = lenAt es i := by
  simp [lenAt, List.getD_cons_succ]

theorem sumLens_cons (e : Nat × Nat) (es : List (Nat × Nat)) (i : Nat) :
    sumLens (e :: es) (i + 1) = lenAt (e :: es) 0 + sumLens es i := by
  induction i with
  | zero => simp [sumLens]
  | succ i ih =>
    rw [show i + 1 + 1 = (i + 1) + 1 from rfl]
    rw [sumLens, ih, lenAt_cons, sumLens, Nat.add_assoc]

theorem readResources_truncated :
    ∀ (i : Nat) (es : List (Nat × Nat)) (p : PakFile) (pl : List Nat),
    i + 1 < es.length → sumLens es i < pl.length → pl.length < sumLens es i + lenAt es i →
    readResources p es pl = .error (.truncated (es.getD i (0, 0)).1) := by
  intro i
  induction i with
  | zero =>
    intro es p pl hi hfit hover
    cases es with
    | nil => simp only [List.length_nil] at hi; omega
    | cons e1 tl =>
      cases tl with
      | nil => simp only [List.length_cons, List.length_nil] at hi; omega
      | cons e2 rest =>
        obtain ⟨i1, o1⟩ := e1
        obtain ⟨i2, o2⟩ := e2
        simp only [sumLens] at hfit hover
        rw [readResources_cons]
        rw [if_neg (by omega)]
        rw [if_pos (by simpa [lenAt] using hover)]
        rfl
  | succ i ih =>
    intro es p pl hi hfit hover
    cases es with
    | nil => simp only [List.length_nil] at hi; omega
    | cons e1 tl =>
      cases tl with
      | nil => simp only [List.length_cons, List.length_nil] at hi; omega
      | cons e2 rest =>
        obtain ⟨i1, o1⟩ := e1
        obtain ⟨i2, o2⟩ := e2
        have hlen0 : lenAt ((i1, o1) :: (i2, o2) :: rest) 0 = u32sub o2 o1 := by
          simp [lenAt]
        rw [lenAt_cons] at hover
        have hshift := sumLens_cons (i1, o1) ((i2, o2) :: rest) i
        rw [hshift, hlen0] at hfit hover
        rw [readResources_cons]
        rw [if_neg (by omega)]
        rw [if_neg (by omega)]
        have hdrop : (pl.drop (u32sub o2 o1)).length = pl.length - u32sub o2 o1 :=
          List.length_drop _ _
        rw [ih ((i2, o2) :: rest) _ (pl.drop (u32sub o2 o1))
          (by simp only [List.length_cons] at hi ⊢; omega)
          (by rw [hdrop]; omega)
          (by rw [hdrop]; omega)]
        rfl

theorem readResources_keys_mono :
    ∀ (es : List (Nat × Nat)) (p : PakFile) (s : List Nat) (t : PakFile),
    readResources p es s = .ok t →
    ∀ k ∈ p.Resourses.map Prod.fst, k ∈ t.Resourses.map Prod.fst := by
  intro es
  induction es with
  | nil =>
    intro p s t h k hk
    simp only [readResources] at h
    cases h
    exact hk
  | cons e1 tl ih =>
    intro p s t h k hk
    cases tl with
    | nil =>
      simp only [readResources] at h
      cases h
      exact hk
    | cons e2 rest =>
      obtain ⟨i1, o1⟩ := e1
      obtain ⟨i2, o2⟩ := e2
      rw [readResources_cons] at h
      by_cases heof : 0 < u32sub o2 o1 ∧ s.length = 0
      · rw [if_pos heof] at h
        cases h
      · rw [if_neg heof] at h
        by_cases hcond : s.length < u32sub o2 o1
        · rw [if_pos hcond] at h
          cases h
        · rw [if_neg hcond] at h
          exact ih _ _ _ h k (mem_keys_mapInsert_of _ _ _ hk)

theorem readResources_keys :
    ∀ (es : List (Nat × Nat)) (p : PakFile) (s : List Nat) (t : PakFile),
    readResources p es s = .ok t →
    ∀ q ∈ es.dropLast, q.1 ∈ t.Resourses.map Prod.fst := by
  intro es
  induction es with
  | nil =>
    intro p s t _ q hq
    simp at hq
  | cons e1 tl ih =>
    intro p s t h q hq
    cases tl with
    | nil => simp at hq
    | cons e2 rest =>
      obtain ⟨i1, o1⟩ := e1
      obtain ⟨i2, o2⟩ := e2
      rw [readResources_cons] at h
      by_cases heof : 0 < u32sub o2 o1 ∧ s.length = 0
      · rw [if_pos heof] at h
        cases h
      · rw [if_neg heof] at h
        by_cases hcond : s.length < u32sub o2 o1
        · rw [if_pos hcond] at h
          cases h
        · rw [if_neg hcond] at h
          rw [List.dropLast_cons₂] at hq
          rcases List.mem_cons.mp hq with hq | hq
          · subst hq
            exact readResources_keys_mono _ _ _ _ h _ (mem_keys_mapInsert_self _ _ _)
          · exact ih _ _ _ h q hq

theorem keys_perm_of_lookup_eq {m₁ m₂ : List (Nat × List Nat)}
    (h1 : (m₁.map Prod.fst).Nodup) (h2 : (m₂.map Prod.fst).Nodup)
    (hm : ∀ k, mapLookup k m₁ = mapLookup k m₂) :
    (m₁.map Prod.fst).Perm (m₂.map Prod.fst) := by
  rw [List.perm_ext_iff_of_nodup h1 h2]
  intro k
  rw [← mapLookup_isSome_iff, ← mapLookup_isSome_iff, hm k]

theorem sortedIds_eq_of_keys_perm {p q : PakFile}
    (hperm : (p.Resourses.map Prod.fst).Perm (q.Resourses.map Prod.fst)) :
    sortedIds p = sortedIds q :=
  List.eq_of_perm_of_sorted
    ((sortedIds_perm p).trans (hperm.trans (sortedIds_perm q).symm))
    (List.sorted_insertionSort _ _) (List.sorted_insertionSort _ _)

theorem writeIndexEntries_congr {p q : PakFile}
    (hm : ∀ k, mapLookup k p.Resourses = mapLookup k q.Resourses) (ids : List Nat) :
    ∀ cur : Nat, writeIndexEntries p ids cur = writeIndexEntries q ids cur := by
  induction ids with
  | nil => intro cur; rfl
  | cons id ids ih =>
    intro cur
    have hl : lookupD p.Resourses id = lookupD q.Resourses id := by
      rw [lookupD, lookupD, hm id]
    simp only [writeIndexEntries, hl, ih]

theorem catMap_lookup_congr {p q : PakFile}
    (hm : ∀ k, mapLookup k p.Resourses = mapLookup k q.Resourses) (ids : List Nat) :
    catMap (fun id => lookupD p.Resourses id) ids =
      catMap (fun id => lookupD q.Resourses id) ids := by
  induction ids with
  | nil => rfl
  | cons id ids ih =>
    have hl : lookupD p.Resourses id = lookupD q.Resourses id := by
      rw [lookupD, lookupD, hm id]
    simp only [catMap_cons, hl, ih]

theorem entriesFor_getD_zero (cur : Nat) (rs : List (Nat × List Nat))
    (h : cur < 4294967296) : ((entriesFor cur rs).getD 0 (0, 0)).2 = cur := by
  cases rs with
  | nil => simp [entriesFor_nil, Nat.mod_eq_of_lt h]
  | cons q rs =>
    obtain ⟨k, d⟩ := q
    simp [entriesFor_cons, Nat.mod_eq_of_lt h]

theorem entriesFor_offsets (rs : List (Nat × List Nat)) :
    ∀ (cur i : Nat), cur + totalLen rs < 4294967296 →
    i + 1 < (entriesFor cur rs).length →
    ((entriesFor cur rs).getD (i + 1) (0, 0)).2 =
      ((entriesFor cur rs).getD i (0, 0)).2 + (rs.getD i (0, [])).2.length := by
  induction rs with
  | nil =>
    intro cur i _ hi
    simp only [entriesFor_length, List.length_nil] at hi
    omega
  | cons q rs ih =>
    obtain ⟨k, d⟩ := q
    intro cur i hw hi
    have hw' : cur + d.length + totalLen rs < 4294967296 := by
      simp only [totalLen, List.map_cons, List.sum_cons] at hw
      simp only [totalLen]
      omega
    cases i with
    | zero =>
      rw [entriesFor_cons, List.getD_cons_succ, List.getD_cons_zero, List.getD_cons_zero,
        entriesFor_getD_zero _ _ (by omega)]
      simp [Nat.mod_eq_of_lt (show cur < 4294967296 by omega)]
    | succ i =>
      rw [entriesFor_cons, List.getD_cons_succ, List.getD_cons_succ, List.getD_cons_succ]
      refine ih (cur + d.length) i hw' ?_
      rw [entriesFor_length]
      rw [entriesFor_cons, List.length_cons, entriesFor_length] at hi
      omega

theorem entriesFor_last_nowrap (cur : Nat) (rs : List (Nat × List Nat))
    (h : cur + totalLen rs < 4294967296) :
    (entriesFor cur rs).getD rs.length (0, 0) = (0, cur + totalLen rs) := by
  rw [entriesFor_last, Nat.mod_eq_of_lt h]

theorem leNum_lt (l : List Nat) : leNum l < 256 ^ l.length := by
  induction l with
  | nil => simp [leNum]
  | cons b rest ih =>
    have hb : b % 256 < 256 := Nat.mod_lt _ (by omega)
    have hmul : 256 * (leNum rest + 1) ≤ 256 * 256 ^ rest.length :=
      Nat.mul_le_mul_left 256 (by omega)
    simp only [leNum, List.length_cons, pow_succ]
    omega

theorem leNum_take4_lt (l : List Nat) : leNum (l.take 4) < 4294967296 := by
  have h := leNum_lt (l.take 4)
  have hle : (l.take 4).length ≤ 4 := List.length_take_le _ _
  have hpow : (256 : Nat) ^ (l.take 4).length ≤ 256 ^ 4 :=
    Nat.pow_le_pow_right (by omega) hle
  omega

theorem readResources_ne_crash :
    ∀ (es : List (Nat × Nat)) (p : PakFile) (s : List Nat),
    readResources p es s ≠ .crash := by
  intro es
  induction es with
  | nil =>
    intro p s h
    rw [readResources_nil] at h
    exact ReadResult.noConfusion h
  | cons e1 tl ih =>
    intro p s h
    cases tl with
    | nil =>
      rw [readResources_single] at h
      exact ReadResult.noConfusion h
    | cons e2 rest =>
      obtain ⟨i1, o1⟩ := e1
      obtain ⟨i2, o2⟩ := e2
      rw [readResources_cons] at h
      by_cases heof : 0 < u32sub o2 o1 ∧ s.length = 0
      · rw [if_pos heof] at h
        exact ReadResult.noConfusion h
      · rw [if_neg heof] at h
        by_cases hcond : s.length < u32sub o2 o1
        · rw [if_pos hcond] at h
          exact ReadResult.noConfusion h
        · rw [if_neg hcond] at h
          exact ih _ _ h

theorem read_crash_count (s : List Nat) (h : Read s = .crash) :
    leNum ((s.drop 4).take 4) = 4294967295 := by
  rw [Read] at h
  by_cases h9 : s.length < 9
  · rw [if_pos h9] at h
    exact ReadResult.noConfusion h
  · rw [if_neg h9] at h
    by_cases hz : (leNum ((s.drop 4).take 4) + 1) % 4294967296 = 0
    · have hlt := leNum_take4_lt (s.drop 4)
      omega
    · rw [if_neg hz] at h
      by_cases hidx : (s.drop 9).length <
          6 * ((leNum ((s.drop 4).take 4) + 1) % 4294967296)
      · rw [if_pos hidx] at h
        exact ReadResult.noConfusion h
      · rw [if_neg hidx] at h
        by_cases hsent : ((readEntries ((leNum ((s.drop 4).take 4) + 1) % 4294967296)
            (s.drop 9)).getD (leNum ((s.drop 4).take 4)) (0, 0)).1 ≠ 0
        · rw [if_pos hsent] at h
          exact ReadResult.noConfusion h
        · rw [if_neg hsent] at h
          exact absurd h (readResources_ne_crash _ _ _)

theorem read_crash (v e : Nat) (r : List Nat) :
    Read (u32le v ++ (u32le 4294967295 ++ ([e % 256] ++ r))) = .crash := by
  simp only [Read, take4_u32, drop4_u32, leNum_u32le, header_length]
  rw [if_neg (by omega)]
  rw [if_pos (by norm_num)]

theorem getD_replicate {n : Nat} (i : Nat) (x d : Nat × Nat) (h : i < n) :
    (List.replicate n x).getD i d = x := by
  induction n generalizing i with
  | zero => omega
  | succ n ih =>
    cases i with
    | zero => rw [List.replicate_succ, List.getD_cons_zero]
    | succ i =>
      rw [List.replicate_succ, List.getD_cons_succ]
      exact ih i (by omega)

theorem getD_replicate_append (n : Nat) (x y d : Nat × Nat) :
    (List.replicate n x ++ [y]).getD n d = y := by
  induction n with
  | zero => rfl
  | succ n ih =>
    rw [List.replicate_succ, List.cons_append, List.getD_cons_succ]
    exact ih

/-- Claim C1 (amended): for every ResourceTable whose identifiers are drawn from
1..=65535 and whose payloads are byte sequences each shorter than 2^32 bytes,
decoding the bytes produced by encoding the table yields a table equal to it:
same format_version, same encoding tag, and the same identifier-to-bytes mapping
(stated both as a permutation of the key-unique association list and as equality
of all lookups). The original claim's "arbitrary byte payloads" fails for a
payload of 2^32 bytes, whose 32-bit offsets wrap (see the counterexample). -/
theorem claim1_roundtrip (p : PakFile)
    (hv : p.Version < 4294967296) (he : p.Encoding < 256)
    (hnd : (p.Resourses.map Prod.fst).Nodup)
    (hid : ∀ q ∈ p.Resourses, 1 ≤ q.1 ∧ q.1 ≤ 65535)
    (hdl : ∀ q ∈ p.Resourses, q.2.length < 4294967296) :
    ∃ d, Read (Write p) = .ok d ∧ d.Version = p.Version ∧ d.Encoding = p.Encoding ∧
      d.Resourses.Perm p.Resourses ∧
      ∀ k, mapLookup k d.Resourses = mapLookup k p.Resourses := by
  have h16 : ∀ q ∈ p.Resourses, q.1 < 65536 := fun q hq => by
    have := hid q hq
    omega
  refine ⟨⟨p.Version, p.Encoding, sortedRs p⟩, read_write p hv he hnd h16 hdl, rfl, rfl,
    sortedRs_perm p hnd, ?_⟩
  intro k
  exact mapLookup_perm k
    (by rw [sortedRs_keys]; exact ((sortedIds_perm p).nodup_iff).mpr hnd)
    (sortedRs_perm p hnd)

theorem claim1_witness :
    ((⟨7, 2, [(300, [9, 8]), (7, [1])]⟩ : PakFile).Version < 4294967296) ∧
    ((⟨7, 2, [(300, [9, 8]), (7, [1])]⟩ : PakFile).Encoding < 256) ∧
    (((⟨7, 2, [(300, [9, 8]), (7, [1])]⟩ : PakFile).Resourses.map Prod.fst).Nodup) ∧
    (∀ q ∈ (⟨7, 2, [(300, [9, 8]), (7, [1])]⟩ : PakFile).Resourses,
      1 ≤ q.1 ∧ q.1 ≤ 65535) ∧
    (∀ q ∈ (⟨7, 2, [(300, [9, 8]), (7, [1])]⟩ : PakFile).Resourses,
      q.2.length < 4294967296) ∧
    ∃ d, Read (Write ⟨7, 2, [(300, [9, 8]), (7, [1])]⟩) = .ok d ∧
      d.Version = 7 ∧ d.Encoding = 2 ∧
      d.Resourses.Perm [(300, [9, 8]), (7, [1])] ∧
      ∀ k, mapLookup k d.Resourses = mapLookup k [(300, [9, 8]), (7, [1])] :=
  ⟨by decide, by decide, by decide, by decide, by decide,
    claim1_roundtrip ⟨7, 2, [(300, [9, 8]), (7, [1])]⟩
      (by decide) (by decide) (by decide) (by decide) (by decide)⟩

theorem claim1_counterexample :
    Read (Write Tbig) = .ok ⟨0, 0, [(1, [])]⟩ ∧
    mapLookup 1 Tbig.Resourses = some (List.replicate 4294967296 0) ∧
    ([] : List Nat) ≠ List.replicate 4294967296 0 := by
  have hsrs : sortedRs Tbig = [(1, List.replicate 4294967296 0)] := rfl
  have hpe : pakEntries Tbig = [(1, 21), (0, 21)] := by
    rw [pakEntries, hsrs, show Tbig.Resourses.length = 1 from rfl, entriesFor_cons,
      entriesFor_nil, List.length_replicate]
  refine ⟨?_, rfl, ?_⟩
  · rw [write_decomp, hpe, hsrs, show Tbig.Resourses.length = 1 from rfl]
    rw [show Tbig.Version = 0 from rfl, show Tbig.Encoding = 0 from rfl]
    rw [read_stream 0 1 0 [(1, 21), (0, 21)] _ (by norm_num) (by norm_num) (by decide)]
    rw [if_neg (by decide)]
    rw [catMap_cons, catMap_nil, List.append_nil]
    rw [readResources_cons]
    have hz : u32sub 21 21 = 0 := by norm_num [u32sub]
    rw [hz, List.length_replicate]
    rw [if_neg (by omega)]
    rw [if_neg (by omega)]
    rw [List.take_zero, List.drop_zero, readResources_single]
    rfl
  · intro h
    have hcl := congrArg List.length h
    rw [List.length_nil, List.length_replicate] at hcl
    omega

/-- Claim C2: encoding is deterministic. Two tables with equal version, equal
encoding tag, key-unique mappings, and pointwise equal identifier-to-bytes
lookups (so the same mapping, in whatever insertion order the association
lists were built) encode to byte-identical output. -/
theorem claim2_deterministic (p q : PakFile)
    (hv : p.Version = q.Version) (he : p.Encoding = q.Encoding)
    (hp : (p.Resourses.map Prod.fst).Nodup) (hq : (q.Resourses.map Prod.fst).Nodup)
    (hm : ∀ k, mapLookup k p.Resourses = mapLookup k q.Resourses) :
    Write p = Write q := by
  have hkp := keys_perm_of_lookup_eq hp hq hm
  have hlen : p.Resourses.length = q.Resourses.length := by
    have hl := hkp.length_eq
    rwa [List.length_map, List.length_map] at hl
  have hids : sortedIds p = sortedIds q := sortedIds_eq_of_keys_perm hkp
  rw [Write, Write, hv, he, hlen, hids, writeIndexEntries_congr hm,
    catMap_lookup_congr hm]

theorem claim2_witness :
    ((⟨1, 0, [(7, [1]), (300, [2])]⟩ : PakFile).Version =
      (⟨1, 0, [(300, [2]), (7, [1])]⟩ : PakFile).Version) ∧
    ((⟨1, 0, [(7, [1]), (300, [2])]⟩ : PakFile).Encoding =
      (⟨1, 0, [(300, [2]), (7, [1])]⟩ : PakFile).Encoding) ∧
    (((⟨1, 0, [(7, [1]), (300, [2])]⟩ : PakFile).Resourses.map Prod.fst).Nodup) ∧
    (((⟨1, 0, [(300, [2]), (7, [1])]⟩ : PakFile).Resourses.map Prod.fst).Nodup) ∧
    (∀ k, mapLookup k ([(7, [1]), (300, [2])] : List (Nat × List Nat)) =
      mapLookup k [(300, [2]), (7, [1])]) ∧
    Write ⟨1, 0, [(7, [1]), (300, [2])]⟩ = Write ⟨1, 0, [(300, [2]), (7, [1])]⟩ := by
  have hm : ∀ k, mapLookup k ([(7, [1]), (300, [2])] : List (Nat × List Nat)) =
      mapLookup k [(300, [2]), (7, [1])] := by
    intro k
    simp only [mapLookup]
    by_cases h7 : (7 : Nat) = k
    · subst h7
      norm_num
    · by_cases h3 : (300 : Nat) = k
      · subst h3
        norm_num
      · simp [h7, h3]
  exact ⟨rfl, rfl, by decide, by decide, hm,
    claim2_deterministic ⟨1, 0, [(7, [1]), (300, [2])]⟩ ⟨1, 0, [(300, [2]), (7, [1])]⟩
      rfl rfl (by decide) (by decide) hm⟩

/-- Claim C3 (amended): for every input stream whose 9-byte header declares
resource count `c < 2^32 - 1` and whose full index of `c + 1` entries is
present, if the last index entry has a non-zero identifier then decoding
fails with the structural sentinel error and returns no table. At
`c = 2^32 - 1` the `uint32` computation `numberOfResources+1` wraps to 0
and the program panics at `resInfos[numberOfResources]` instead of
performing the sentinel check (see the counterexample). -/
theorem claim3_sentinel (v c e : Nat) (es : List (Nat × Nat)) (t : List Nat)
    (hc : c + 1 < 4294967296) (hlen : es.length = c + 1)
    (hnorm : ∀ q ∈ es, q.1 < 65536 ∧ q.2 < 4294967296)
    (hlast : (es.getD c (0, 0)).1 ≠ 0) :
    Read (u32le v ++ (u32le c ++ ([e % 256] ++ (indexBytes es ++ t)))) =
      .error .sentinel := by
  rw [read_stream v c e es t hc hlen hnorm, if_pos hlast]

theorem claim3_witness :
    ((0 : Nat) + 1 < 4294967296) ∧
    (([((5 : Nat), (15 : Nat))]).length = 0 + 1) ∧
    (∀ q ∈ [((5 : Nat), (15 : Nat))], q.1 < 65536 ∧ q.2 < 4294967296) ∧
    (([((5 : Nat), (15 : Nat))].getD 0 (0, 0)).1 ≠ 0) ∧
    Read (u32le 0 ++ (u32le 0 ++ ([0 % 256] ++ (indexBytes [(5, 15)] ++ [])))) =
      .error .sentinel :=
  ⟨by decide, by decide, by decide, by decide,
    claim3_sentinel 0 0 0 [(5, 15)] [] (by decide) (by decide) (by decide) (by decide)⟩

theorem claim3_counterexample :
    Read (u32le 0 ++ (u32le 4294967295 ++
      ([0] ++ (indexBytes (List.replicate 4294967296 ((1 : Nat), (0 : Nat))) ++ [])))) =
      .crash ∧
    (List.replicate 4294967296 ((1 : Nat), (0 : Nat))).length = 4294967295 + 1 ∧
    ((List.replicate 4294967296 ((1 : Nat), (0 : Nat))).getD 4294967295 (0, 0)).1 ≠ 0 ∧
    ReadResult.crash ≠ ReadResult.error .sentinel := by
  refine ⟨read_crash 0 0 _, ?_, ?_, by decide⟩
  · rw [List.length_replicate]
  · rw [getD_replicate 4294967295 (1, 0) (0, 0) (by omega)]
    decide

/-- Claim C4 (amended): for every input stream with a readable header and
index, `c < 2^32 - 1` declared resources and a valid terminal sentinel, if
the declared length of the `i`-th resource (the 32-bit offset difference of
consecutive index entries) extends past the bytes remaining in the stream —
all earlier resources fitting, and at least one payload byte remaining at
resource `i` — then decoding fails with a truncation error naming that
resource's identifier. When zero bytes remain, the reader's `io.EOF` is
returned instead, naming no identifier; at `c = 2^32 - 1` the program
panics (see the counterexample for both). -/
theorem claim4_truncation (v c e : Nat) (es : List (Nat × Nat)) (pl : List Nat) (i : Nat)
    (hc : c + 1 < 4294967296) (hlen : es.length = c + 1)
    (hnorm : ∀ q ∈ es, q.1 < 65536 ∧ q.2 < 4294967296)
    (hsent : (es.getD c (0, 0)).1 = 0)
    (hi : i < c)
    (hfit : sumLens es i < pl.length)
    (hover : pl.length < sumLens es i + lenAt es i) :
    Read (u32le v ++ (u32le c ++ ([e % 256] ++ (indexBytes es ++ pl)))) =
      .error (.truncated (es.getD i (0, 0)).1) := by
  rw [read_stream v c e es pl hc hlen hnorm, if_neg (fun h => h hsent)]
  exact readResources_truncated i es _ pl (by rw [hlen]; omega) hfit hover

theorem claim4_witness :
    ((1 : Nat) + 1 < 4294967296) ∧
    (([((7 : Nat), (15 : Nat)), (0, 20)]).length = 1 + 1) ∧
    (∀ q ∈ [((7 : Nat), (15 : Nat)), (0, 20)], q.1 < 65536 ∧ q.2 < 4294967296) ∧
    (([((7 : Nat), (15 : Nat)), (0, 20)].getD 1 (0, 0)).1 = 0) ∧
    ((0 : Nat) < 1) ∧
    (sumLens [(7, 15), (0, 20)] 0 < ([1, 2, 3] : List Nat).length) ∧
    (([1, 2, 3] : List Nat).length < sumLens [(7, 15), (0, 20)] 0 + lenAt [(7, 15), (0, 20)] 0) ∧
    Read (u32le 0 ++ (u32le 1 ++ ([0 % 256] ++ (indexBytes [(7, 15), (0, 20)] ++ [1, 2, 3])))) =
      .error (.truncated ([((7 : Nat), (15 : Nat)), (0, 20)].getD 0 (0, 0)).1) :=
  ⟨by decide, by decide, by decide, by decide, by decide, by decide, by decide,
    claim4_truncation 0 1 0 [(7, 15), (0, 20)] [1, 2, 3] 0 (by decide) (by decide)
      (by decide) (by decide) (by decide) (by decide) (by decide)⟩

theorem claim4_counterexample :
    lenAt [((7 : Nat), (15 : Nat)), (0, 20)] 0 = 5 ∧
    Read (u32le 0 ++ (u32le 1 ++ ([0] ++ (indexBytes [(7, 15), (0, 20)] ++ [])))) =
      .error .eof ∧
    DecodeError.eof ≠ DecodeError.truncated 7 ∧
    Read (u32le 0 ++ (u32le 4294967295 ++ ([0] ++ (indexBytes
      ((7, 0) :: (List.replicate 4294967294 ((1 : Nat), (5 : Nat)) ++ [(0, 5)])) ++ [])))) =
      .crash ∧
    ((7, 0) :: (List.replicate 4294967294 ((1 : Nat), (5 : Nat)) ++ [(0, 5)])).length =
      4294967295 + 1 ∧
    (((7, 0) :: (List.replicate 4294967294 ((1 : Nat), (5 : Nat)) ++ [(0, 5)])).getD
      4294967295 (0, 0)).1 = 0 := by
  refine ⟨by decide, by decide, by decide, read_crash 0 0 _, ?_, ?_⟩
  · rw [List.length_cons, List.length_append, List.length_replicate]
    rfl
  · rw [show (4294967295 : Nat) = 4294967294 + 1 from rfl, List.getD_cons_succ,
      getD_replicate_append]

/-- Claim C5: the table mapping identifier 5 to the empty byte sequence
encodes to exactly 21 bytes — the 9-byte header, the entry `(5, 21)`, the
terminal entry `(0, 21)` and no payload bytes — and decoding those bytes
yields exactly the single-resource table binding 5 to the empty sequence. -/
theorem claim5_zero_length (v e : Nat) (hv : v < 4294967296) (he : e < 256) :
    Write ⟨v, e, [(5, [])]⟩ =
      u32le v ++ u32le 1 ++ [e] ++ [5, 0] ++ u32le 21 ++ [0, 0] ++ u32le 21 ∧
    (Write ⟨v, e, [(5, [])]⟩).length = 21 ∧
    Read (Write ⟨v, e, [(5, [])]⟩) = .ok ⟨v, e, [(5, [])]⟩ := by
  have h1 : Write ⟨v, e, [(5, [])]⟩ =
      u32le v ++ u32le 1 ++ [e] ++ [5, 0] ++ u32le 21 ++ [0, 0] ++ u32le 21 := by
    rw [Write]
    simp [sortedIds, List.insertionSort, List.orderedInsert, writeIndexEntries,
      lookupD, mapLookup, u16le, Nat.mod_eq_of_lt he, List.append_assoc]
  refine ⟨h1, ?_, ?_⟩
  · rw [h1]
    simp [u32le]
  · rw [read_write ⟨v, e, [(5, [])]⟩ hv he
      (show (([(5, ([] : List Nat))] : List (Nat × List Nat)).map Prod.fst).Nodup by decide)
      (show ∀ q ∈ ([(5, ([] : List Nat))] : List (Nat × List Nat)), q.1 < 65536 by decide)
      (show ∀ q ∈ ([(5, ([] : List Nat))] : List (Nat × List Nat)),
        q.2.length < 4294967296 by decide)]
    rfl

theorem claim5_witness :
    ((0 : Nat) < 4294967296) ∧ ((0 : Nat) < 256) ∧
    (Write ⟨0, 0, [(5, [])]⟩ =
      u32le 0 ++ u32le 1 ++ [0] ++ [5, 0] ++ u32le 21 ++ [0, 0] ++ u32le 21 ∧
    (Write ⟨0, 0, [(5, [])]⟩).length = 21 ∧
    Read (Write ⟨0, 0, [(5, [])]⟩) = .ok ⟨0, 0, [(5, [])]⟩) :=
  ⟨by decide, by decide, claim5_zero_length 0 0 (by decide) (by decide)⟩

/-- Claim C6: encoding a table with zero resources produces exactly 15
bytes — the 9-byte header followed by the single terminal index entry
`(0, 15)` — and decoding those 15 bytes yields a table with an empty
resource mapping and the same version and encoding. -/
theorem claim6_empty (v e : Nat) (hv : v < 4294967296) (he : e < 256) :
    Write ⟨v, e, []⟩ = u32le v ++ u32le 0 ++ [e] ++ [0, 0] ++ u32le 15 ∧
    (Write ⟨v, e, []⟩).length = 15 ∧
    Read (Write ⟨v, e, []⟩) = .ok ⟨v, e, []⟩ := by
  have h1 : Write ⟨v, e, []⟩ = u32le v ++ u32le 0 ++ [e] ++ [0, 0] ++ u32le 15 := by
    rw [Write]
    simp [sortedIds, List.insertionSort, writeIndexEntries, u16le,
      Nat.mod_eq_of_lt he, List.append_assoc]
  refine ⟨h1, ?_, ?_⟩
  · rw [h1]
    simp [u32le]
  · rw [read_write ⟨v, e, []⟩ hv he
      (show (([] : List (Nat × List Nat)).map Prod.fst).Nodup by decide)
      (show ∀ q ∈ ([] : List (Nat × List Nat)), q.1 < 65536 by decide)
      (show ∀ q ∈ ([] : List (Nat × List Nat)), q.2.length < 4294967296 by decide)]
    rfl

theorem claim6_witness :
    ((3 : Nat) < 4294967296) ∧ ((2 : Nat) < 256) ∧
    (Write ⟨3, 2, []⟩ = u32le 3 ++ u32le 0 ++ [2] ++ [0, 0] ++ u32le 15 ∧
    (Write ⟨3, 2, []⟩).length = 15 ∧
    Read (Write ⟨3, 2, []⟩) = .ok ⟨3, 2, []⟩) :=
  ⟨by decide, by decide, claim6_empty 3 2 (by decide) (by decide)⟩

/-- Claim C7: for every table the serialization order of identifiers is
ascending (the sorted id list is `≤`-sorted); in particular a table holding
identifiers 300 and 7 encodes with the index entry for 7 (at offset 27)
before the entry for 300, then the terminal entry, then the payloads in the
same ascending order — and the same bytes result from either construction
order of the association list. -/
theorem claim7_ascending (v e : Nat) (aa bb : List Nat) (p : PakFile) :
    List.Sorted (· ≤ ·) (sortedIds p) ∧
    Write ⟨v, e, [(300, bb), (7, aa)]⟩ = Write ⟨v, e, [(7, aa), (300, bb)]⟩ ∧
    Write ⟨v, e, [(7, aa), (300, bb)]⟩ =
      u32le v ++ u32le 2 ++ [e % 256] ++ [7, 0] ++ u32le 27 ++ [44, 1] ++
        u32le (27 + aa.length) ++ [0, 0] ++ u32le (27 + aa.length + bb.length) ++
        aa ++ bb := by
  refine ⟨List.sorted_insertionSort _ _, ?_, ?_⟩
  · rw [Write, Write]
    simp [sortedIds, List.insertionSort, List.orderedInsert, writeIndexEntries,
      lookupD, mapLookup, List.append_assoc]
  · rw [Write]
    simp [sortedIds, List.insertionSort, List.orderedInsert, writeIndexEntries,
      lookupD, mapLookup, u16le, List.append_assoc, Nat.add_assoc]

/-- Claim C8 (amended): for a table with `N` resources whose total encoded
size fits in 32 bits (so no offset wraps), the index `Write` emits has
`N + 1` entries; the offset in the first entry is `9 + 6 * (N + 1)`; every
later entry's offset is the previous entry's offset plus the previous
resource's byte length; and the terminal entry is `(0, start + total payload
length)`. Without the size bound the written 32-bit offsets wrap and the
stated arithmetic fails (see the counterexample). -/
theorem claim8_offsets (p : PakFile)
    (htot : 9 + 6 * (p.Resourses.length + 1) + totalLen (sortedRs p) < 4294967296) :
    Write p = u32le p.Version ++ (u32le p.Resourses.length ++ ([p.Encoding % 256] ++
      (indexBytes (pakEntries p) ++ catMap Prod.snd (sortedRs p)))) ∧
    (pakEntries p).length = p.Resourses.length + 1 ∧
    ((pakEntries p).getD 0 (0, 0)).2 = 9 + 6 * (p.Resourses.length + 1) ∧
    (∀ i, i + 1 < (pakEntries p).length →
      ((pakEntries p).getD (i + 1) (0, 0)).2 =
        ((pakEntries p).getD i (0, 0)).2 + ((sortedRs p).getD i (0, [])).2.length) ∧
    (pakEntries p).getD p.Resourses.length (0, 0) =
      (0, 9 + 6 * (p.Resourses.length + 1) + totalLen (sortedRs p)) := by
  refine ⟨write_decomp p, ?_, ?_, ?_, ?_⟩
  · rw [pakEntries, entriesFor_length, sortedRs_length]
  · rw [pakEntries, entriesFor_getD_zero _ _ (by omega)]
  · intro i hi
    rw [pakEntries] at hi ⊢
    exact entriesFor_offsets (sortedRs p) _ i (by omega) hi
  · rw [pakEntries, ← sortedRs_length p, entriesFor_last_nowrap _ _
      (by rw [sortedRs_length]; omega), sortedRs_length]

theorem claim8_witness :
    (9 + 6 * ((⟨0, 0, [(5, [9]), (2, [7, 7])]⟩ : PakFile).Resourses.length + 1) +
      totalLen (sortedRs ⟨0, 0, [(5, [9]), (2, [7, 7])]⟩) < 4294967296) ∧
    (Write ⟨0, 0, [(5, [9]), (2, [7, 7])]⟩ =
      u32le 0 ++ (u32le 2 ++ ([0 % 256] ++
        (indexBytes (pakEntries ⟨0, 0, [(5, [9]), (2, [7, 7])]⟩) ++
          catMap Prod.snd (sortedRs ⟨0, 0, [(5, [9]), (2, [7, 7])]⟩)))) ∧
    (pakEntries ⟨0, 0, [(5, [9]), (2, [7, 7])]⟩).length = 2 + 1 ∧
    ((pakEntries ⟨0, 0, [(5, [9]), (2, [7, 7])]⟩).getD 0 (0, 0)).2 = 9 + 6 * (2 + 1) ∧
    (∀ i, i + 1 < (pakEntries ⟨0, 0, [(5, [9]), (2, [7, 7])]⟩).length →
      ((pakEntries ⟨0, 0, [(5, [9]), (2, [7, 7])]⟩).getD (i + 1) (0, 0)).2 =
        ((pakEntries ⟨0, 0, [(5, [9]), (2, [7, 7])]⟩).getD i (0, 0)).2 +
          ((sortedRs ⟨0, 0, [(5, [9]), (2, [7, 7])]⟩).getD i (0, [])).2.length) ∧
    (pakEntries ⟨0, 0, [(5, [9]), (2, [7, 7])]⟩).getD 2 (0, 0) =
      (0, 9 + 6 * (2 + 1) + totalLen (sortedRs ⟨0, 0, [(5, [9]), (2, [7, 7])]⟩))) :=
  ⟨by decide, claim8_offsets ⟨0, 0, [(5, [9]), (2, [7, 7])]⟩ (by decide)⟩

theorem claim8_counterexample :
    pakEntries T8big = [(2, 21), (0, 21)] ∧
    T8big.Resourses.length = 1 ∧
    totalLen (sortedRs T8big) = 4294967296 ∧
    (pakEntries T8big).getD 1 (0, 0) ≠
      (0, 9 + 6 * (T8big.Resourses.length + 1) + totalLen (sortedRs T8big)) := by
  have hsrs : sortedRs T8big = [(2, List.replicate 4294967296 0)] := rfl
  have hpe : pakEntries T8big = [(2, 21), (0, 21)] := by
    rw [pakEntries, hsrs, show T8big.Resourses.length = 1 from rfl, entriesFor_cons,
      entriesFor_nil, List.length_replicate]
  have htl : totalLen (sortedRs T8big) = 4294967296 := by
    rw [hsrs, totalLen, List.map_cons, List.map_nil, List.length_replicate,
      List.sum_cons, List.sum_nil]
    omega
  refine ⟨hpe, rfl, htl, ?_⟩
  rw [hpe, htl, show T8big.Resourses.length = 1 from rfl]
  decide

/-- Claim C9 (amended): decoding is atomic on every input stream whose
declared resource-count field is not `2^32 - 1`: `Read` either returns an
error and no table, or returns a fully populated table in which every
non-terminal index entry's identifier is bound. On a stream declaring
`2^32 - 1` resources the `uint32` computation `numberOfResources+1` wraps
and the program panics, returning neither a table nor an error (see the
counterexample). -/
theorem claim9_atomic (s : List Nat)
    (hcnt : leNum ((s.drop 4).take 4) ≠ 4294967295) :
    (∃ er, Read s = .error er ∧ ∀ t, Read s ≠ .ok t) ∨
    (∃ t, Read s = .ok t ∧
      ∀ q ∈ (readEntries (leNum ((s.drop 4).take 4) + 1) (s.drop 9)).dropLast,
        q.1 ∈ t.Resourses.map Prod.fst) := by
  cases h : Read s with
  | crash => exact absurd (read_crash_count s h) hcnt
  | error er =>
    left
    exact ⟨er, rfl, fun t ht => ReadResult.noConfusion ht⟩
  | ok t =>
    right
    refine ⟨t, rfl, ?_⟩
    have hmod : (leNum ((s.drop 4).take 4) + 1) % 4294967296 =
        leNum ((s.drop 4).take 4) + 1 := by
      have := leNum_take4_lt (s.drop 4)
      omega
    simp only [Read] at h
    rw [hmod] at h
    by_cases h9 : s.length < 9
    · rw [if_pos h9] at h
      exact ReadResult.noConfusion h
    · rw [if_neg h9] at h
      rw [if_neg (by omega)] at h
      by_cases hidx : (s.drop 9).length < 6 * (leNum ((s.drop 4).take 4) + 1)
      · rw [if_pos hidx] at h
        exact ReadResult.noConfusion h
      · rw [if_neg hidx] at h
        by_cases hsent : ((readEntries (leNum ((s.drop 4).take 4) + 1) (s.drop 9)).getD
            (leNum ((s.drop 4).take 4)) (0, 0)).1 ≠ 0
        · rw [if_pos hsent] at h
          exact ReadResult.noConfusion h
        · rw [if_neg hsent] at h
          exact readResources_keys _ _ _ _ h

theorem claim9_witness :
    (leNum ((([] : List Nat).drop 4).take 4) ≠ 4294967295) ∧
    ((∃ er, Read ([] : List Nat) = .error er ∧ ∀ t, Read ([] : List Nat) ≠ .ok t) ∨
    (∃ t, Read ([] : List Nat) = .ok t ∧
      ∀ q ∈ (readEntries (leNum ((([] : List Nat).drop 4).take 4) + 1)
          (([] : List Nat).drop 9)).dropLast,
        q.1 ∈ t.Resourses.map Prod.fst)) :=
  ⟨by decide, claim9_atomic [] (by decide)⟩

theorem claim9_counterexample :
    Read [0, 0, 0, 0, 255, 255, 255, 255, 0] = .crash ∧
    (∀ t, Read [0, 0, 0, 0, 255, 255, 255, 255, 0] ≠ .ok t) ∧
    (∀ er, Read [0, 0, 0, 0, 255, 255, 255, 255, 0] ≠ .error er) := by
  have h : Read [0, 0, 0, 0, 255, 255, 255, 255, 0] = .crash := by decide
  refine ⟨h, ?_, ?_⟩
  · intro t ht
    rw [h] at ht
    exact ReadResult.noConfusion ht
  · intro er he
    rw [h] at he
    exact ReadResult.noConfusion he

/-- Claim C10: when an otherwise well-formed stream's index contains two
non-terminal entries with the same non-zero identifier `k` (and no other
entry with identifier `k` after them), decoding succeeds — the duplicate is
not rejected — and the returned mapping binds `k` to the payload of the
later of the two entries. Well-formedness includes a resource count whose
`uint32` increment does not wrap (count + 1 < 2^32), since at count
`2^32 - 1` the program panics before reading any resource. -/
theorem claim10_duplicate (v e k c0 : Nat) (d1 d2 : List Nat)
    (rs1 rs2 rs3 : List (Nat × List Nat))
    (hv : v < 4294967296) (he : e < 256) (hk0 : k ≠ 0) (hk : k < 65536)
    (hc : (rs1 ++ [(k, d1)] ++ rs2 ++ [(k, d2)] ++ rs3).length + 1 < 4294967296)
    (hdl : ∀ q ∈ rs1 ++ [(k, d1)] ++ rs2 ++ [(k, d2)] ++ rs3, q.2.length < 4294967296)
    (hnotk : ∀ q ∈ rs1 ++ rs2 ++ rs3, q.1 % 65536 ≠ k) :
    ∃ t, Read (u32le v ++ (u32le (rs1 ++ [(k, d1)] ++ rs2 ++ [(k, d2)] ++ rs3).length ++
        ([e % 256] ++
          (indexBytes (entriesFor c0 (rs1 ++ [(k, d1)] ++ rs2 ++ [(k, d2)] ++ rs3)) ++
            catMap Prod.snd (rs1 ++ [(k, d1)] ++ rs2 ++ [(k, d2)] ++ rs3))))) = .ok t ∧
      mapLookup k t.Resourses = some d2 := by
  refine ⟨⟨v % 4294967296, e % 256,
    insertAll [] (rs1 ++ [(k, d1)] ++ rs2 ++ [(k, d2)] ++ rs3)⟩, ?_, ?_⟩
  · rw [read_stream v _ e _ _ hc (entriesFor_length c0 _) (entriesFor_norm c0 _)]
    rw [if_neg (fun hcon => hcon (by
      rw [show (rs1 ++ [(k, d1)] ++ rs2 ++ [(k, d2)] ++ rs3).length =
        (rs1 ++ [(k, d1)] ++ rs2 ++ [(k, d2)] ++ rs3).length from rfl, entriesFor_last]))]
    rw [← List.append_nil (catMap Prod.snd (rs1 ++ [(k, d1)] ++ rs2 ++ [(k, d2)] ++ rs3))]
    rw [readResources_entriesFor _ _ c0 [] hdl]
  · rw [insertAll_append, insertAll_append, insertAll_append, insertAll_append]
    rw [mapLookup_insertAll_not_mem _ rs3 k
      (fun q hq => hnotk q (by simp only [List.append_assoc, List.mem_append]; tauto))]
    show mapLookup k (insertAll (mapInsert _ (k % 65536) d2) []) = some d2
    rw [show insertAll (mapInsert (insertAll (insertAll (insertAll [] rs1) [(k, d1)]) rs2)
      (k % 65536) d2) [] = mapInsert (insertAll (insertAll (insertAll [] rs1) [(k, d1)]) rs2)
      (k % 65536) d2 from rfl]
    rw [Nat.mod_eq_of_lt hk]
    exact mapLookup_mapInsert_self _ k d2

theorem claim10_witness :
    ((0 : Nat) < 4294967296) ∧ ((0 : Nat) < 256) ∧ ((3 : Nat) ≠ 0) ∧ ((3 : Nat) < 65536) ∧
    ((([] : List (Nat × List Nat)) ++ [(3, [1])] ++ [] ++ [(3, [2, 2])] ++ []).length + 1
      < 4294967296) ∧
    (∀ q ∈ ([] : List (Nat × List Nat)) ++ [(3, [1])] ++ [] ++ [(3, [2, 2])] ++ [],
      q.2.length < 4294967296) ∧
    (∀ q ∈ ([] : List (Nat × List Nat)) ++ [] ++ [], q.1 % 65536 ≠ 3) ∧
    ∃ t, Read (u32le 0 ++ (u32le (([] : List (Nat × List Nat)) ++ [(3, [1])] ++ [] ++
        [(3, [2, 2])] ++ []).length ++ ([0 % 256] ++
          (indexBytes (entriesFor 27 (([] : List (Nat × List Nat)) ++ [(3, [1])] ++ [] ++
            [(3, [2, 2])] ++ [])) ++
            catMap Prod.snd (([] : List (Nat × List Nat)) ++ [(3, [1])] ++ [] ++
              [(3, [2, 2])] ++ []))))) = .ok t ∧
      mapLookup 3 t.Resourses = some [2, 2] :=
  ⟨by decide, by decide, by decide, by decide, by decide, by decide, by decide,
    claim10_duplicate 0 0 3 27 [1] [2, 2] [] [] [] (by decide) (by decide) (by decide)
      (by decide) (by decide) (by decide) (by decide)⟩

end Pak
